import Mathlib

/-!
Verification of the amsal playback engine core against its specification.

The definitions below are a shallow embedding of the Rust sources in
crates/amsal-core: the command dispatcher and queue controller
(engine.rs), the sample ring, channel adaptation and volume handling
(effects/audio.rs), the play-history/stats recorder (engine.rs), and the
clock-configuration fallback (engine.rs).  JSON state documents are
embedded as typed structures whose fields mirror the keys the code reads
and writes (reads through the ScrollExt lenses default exactly as the
code does).  Machine integers are embedded as Nat with explicit
reduction modulo 2^64 where Rust wraps; f32 sample and volume values are
embedded as rationals.
-/

namespace Amsal

/-! ## Shuffle order generation (engine.rs, generate_shuffle_order) -/

/-- One step of the xorshift RNG used by generate_shuffle_order:
`s ^= s << 13; s ^= s >> 7; s ^= s << 17` on a wrapping u64. -/
def xorshiftStep (s : Nat) : Nat :=
  let s1 := s ^^^ ((s <<< 13) % 2 ^ 64)
  let s2 := s1 ^^^ (s1 >>> 7)
  s2 ^^^ ((s2 <<< 17) % 2 ^ 64)

/-- `Vec::swap i j` on a list: exchange the elements at positions `i`
and `j` (identity when either index is out of range; the Rust code only
calls it in range). -/
def listSwap (l : List Nat) (i j : Nat) : List Nat :=
  match l[i]?, l[j]? with
  | some a, some b => (l.set i b).set j a
  | _, _ => l

/-- The Fisher–Yates loop of generate_shuffle_order: for
`i = n, n-1, …, 1` draw `j = rng % (i+1)` and swap positions `i` and
`j`.  The first argument is the RNG state, the second the highest index
still to be processed. -/
def fyLoop : Nat → Nat → List Nat → List Nat
  | _, 0, order => order
  | s, i + 1, order =>
    let s' := xorshiftStep s
    let j := s' % (i + 2)
    fyLoop s' i (listSwap order (i + 1) j)

/-- engine.rs generate_shuffle_order: collect `0..len` without
`current_index`, Fisher–Yates-shuffle it with the xorshift RNG, and
prepend `current_index`.  The wall-clock nanosecond seed is taken as a
parameter. -/
def generate_shuffle_order (seed len current_index : Nat) : List Nat :=
  let order := (List.range len).filter (fun i => i != current_index)
  let order := fyLoop seed (order.length - 1) order
  current_index :: order

/-! ### Permutation lemmas for the shuffle -/

/-- Replacing the element at position `j` (which is `b`) by `a` and
moving `b` to the front is a permutation of putting `a` at the front. -/
theorem cons_set_perm (l : List α) (j : Nat) (a b : α)
    (h : l[j]? = some b) : List.Perm (b :: l.set j a) (a :: l) := by
  induction l generalizing j with
  | nil => simp at h
  | cons x t ih =>
    cases j with
    | zero =>
      simp only [List.getElem?_cons_zero, Option.some.injEq] at h
      subst h
      show List.Perm (x :: a :: t) (a :: x :: t)
      exact List.Perm.swap a x t
    | succ j =>
      simp only [List.getElem?_cons_succ] at h
      show List.Perm (b :: x :: t.set j a) (a :: x :: t)
      have h1 : List.Perm (b :: x :: t.set j a) (x :: b :: t.set j a) :=
        List.Perm.swap x b (t.set j a)
      have h2 : List.Perm (x :: b :: t.set j a) (x :: a :: t) :=
        List.Perm.cons x (ih j h)
      have h3 : List.Perm (x :: a :: t) (a :: x :: t) := List.Perm.swap a x t
      exact (h1.trans h2).trans h3

/-- A swap is a permutation. -/
theorem listSwap_perm (l : List Nat) (i j : Nat) :
    List.Perm (listSwap l i j) l := by
  induction l generalizing i j with
  | nil => exact List.Perm.refl _
  | cons x t ih =>
    cases i with
    | zero =>
      cases j with
      | zero =>
        simp only [listSwap, List.getElem?_cons_zero, List.set_cons_zero]
        exact List.Perm.refl _
      | succ j' =>
        cases hj : t[j']? with
        | none =>
          simp only [listSwap, List.getElem?_cons_zero,
            List.getElem?_cons_succ, hj]
          exact List.Perm.refl _
        | some b =>
          simp only [listSwap, List.getElem?_cons_zero,
            List.getElem?_cons_succ, hj, List.set_cons_zero,
            List.set_cons_succ]
          exact cons_set_perm t j' x b hj
    | succ i' =>
      cases hi : t[i']? with
      | none =>
        cases j with
        | zero =>
          simp only [listSwap, List.getElem?_cons_zero,
            List.getElem?_cons_succ, hi]
          exact List.Perm.refl _
        | succ j' =>
          simp only [listSwap, List.getElem?_cons_zero,
            List.getElem?_cons_succ, hi]
          cases hj : t[j']? with
          | none => exact List.Perm.refl _
          | some b => exact List.Perm.refl _
      | some a =>
        cases j with
        | zero =>
          simp only [listSwap, List.getElem?_cons_zero,
            List.getElem?_cons_succ, hi, List.set_cons_zero,
            List.set_cons_succ]
          exact cons_set_perm t i' x a hi
        | succ j' =>
          cases hj : t[j']? with
          | none =>
            simp only [listSwap, List.getElem?_cons_succ, hi, hj]
            exact List.Perm.refl _
          | some b =>
            simp only [listSwap, List.getElem?_cons_succ, hi, hj,
              List.set_cons_succ]
            have key : List.Perm ((t.set i' b).set j' a) t := by
              have h0 := ih i' j'
              simp only [listSwap, hi, hj] at h0
              exact h0
            exact List.Perm.cons x key

/-- Fisher–Yates shuffling permutes its input. -/
theorem fyLoop_perm (i s : Nat) (l : List Nat) :
    List.Perm (fyLoop s i l) l := by
  induction i generalizing s l with
  | zero => exact List.Perm.refl _
  | succ i ih =>
    rw [fyLoop]
    exact (ih _ _).trans (listSwap_perm _ _ _)

/-- C4 core: the generated shuffle order is `current_index` followed by
a permutation of the other positions. -/
theorem generate_shuffle_order_perm (seed len k : Nat) (hk : k < len) :
    List.Perm (generate_shuffle_order seed len k) (List.range len) := by
  unfold generate_shuffle_order
  have h1 : List.Perm (fyLoop seed (((List.range len).filter
      (fun i => i != k)).length - 1)
      ((List.range len).filter (fun i => i != k)))
      ((List.range len).filter (fun i => i != k)) := fyLoop_perm _ _ _
  have h2 : List.Perm (k :: (List.range len).filter (fun i => i != k))
      (List.range len) := by
    have hmem : k ∈ List.range len := List.mem_range.mpr hk
    have herase : (List.range len).erase k
        = (List.range len).filter (fun i => i != k) := by
      rw [(List.nodup_range len).erase_eq_filter]
    have h3 := (List.perm_cons_erase hmem).symm
    rwa [herase] at h3
  exact (List.Perm.cons k h1).trans h2

/-! ## Playback state and queue documents (models/scroll_ext.rs) -/

/-- The `/playback/state` document.  Fields mirror the JSON keys the
dispatcher reads and writes; keys that default_playback_state omits are
`Option` with `none` for "absent" (a reader of the raw JSON sees null). -/
structure PlaybackState where
  playing : Bool
  current_id : Option String
  title : Option String
  artist : Option String
  album : Option String
  position_ms : Nat
  duration_ms : Nat
  volume : ℚ
  shuffle : Bool
  repeatMode : String
  error : Option String

/-- scroll_ext.rs default_playback_state. -/
def default_playback_state : PlaybackState :=
  { playing := false
    current_id := none
    title := none
    artist := none
    album := none
    position_ms := 0
    duration_ms := 0
    volume := 4 / 5
    shuffle := false
    repeatMode := "off"
    error := none }

/-- The `/queue/current` document. -/
structure QueueState where
  items : List String
  index : Nat
  shuffle : Bool
  shuffle_order : Option (List Nat)

/-- scroll_ext.rs default_queue_state. -/
def default_queue_state : QueueState :=
  { items := [], index := 0, shuffle := false, shuffle_order := none }

/-- scroll_ext.rs queue_current_id: resolve the current media id,
dereferencing through shuffle_order when shuffle is on. -/
def queue_current_id (q : QueueState) : Option String :=
  if q.items.isEmpty then none
  else if q.shuffle then
    match q.shuffle_order with
    | none => none
    | some order =>
      match order[q.index]? with
      | none => none
      | some eff => q.items[eff]?
  else q.items[q.index]?

/-! ## Command dispatcher (engine.rs, handle_playback and the queue
controller) -/

/-- A `/library/<id>` document as read by the Play command: the decode
path plus the metadata fields the dispatcher copies into the playback
state (each `Option` because the code reads them with as_str/as_u64 and
defaults). -/
structure LibEntry where
  path : Option String
  duration_ms : Option Nat
  title : Option String
  artist : Option String
  album : Option String

/-- Calls issued to the audio pipeline by the dispatcher, in order. -/
inductive AudioCall where
  | play (path : String)
  | pause
  | resume
  | stop
  | seek (ms : Nat)
  | setVolume (v : ℚ)
  deriving DecidableEq, Repr

/-- The dispatcher commands (models/playback.rs PlaybackCommand).
SetRepeat carries the serialized mode string. -/
inductive PlaybackCmd where
  | play (id : String)
  | pause
  | resume
  | stop
  | seek (position_ms : Nat)
  | next
  | previous
  | setVolume (volume : ℚ)
  | setShuffle (enabled : Bool)
  | setRepeat (mode : String)

/-- The two in-memory authoritative documents guarded by the state and
queue mutexes (their store mirrors carry the same value). -/
structure Engine where
  state : PlaybackState
  queue : QueueState

/-- engine.rs handle_playback, PlaybackCommand::Play arm: look up the
library entry, and when it has a path start the pipeline and replace the
playback state, preserving volume/shuffle/repeat from the prior state. -/
def handlePlay (lib : String → Option LibEntry) (e : Engine) (id : String) :
    Engine × List AudioCall :=
  match lib id with
  | none => (e, [])
  | some entry =>
    match entry.path with
    | none => (e, [])
    | some file_path =>
      let st := e.state
      let newState : PlaybackState :=
        { playing := true
          current_id := some id
          title := some (entry.title.getD "Unknown")
          artist := some (entry.artist.getD "Unknown")
          album := some (entry.album.getD "")
          position_ms := 0
          duration_ms := entry.duration_ms.getD 0
          volume := st.volume
          shuffle := st.shuffle
          repeatMode := st.repeatMode
          error := none }
      ({ e with state := newState }, [AudioCall.play file_path])

/-- Tail of engine.rs advance_queue and retreat_queue: store the new
index, resolve the current id, and dispatch Play for it. -/
def advanceTo (lib : String → Option LibEntry) (e : Engine) (index : Nat) :
    Engine × List AudioCall :=
  let q' := { e.queue with index := index }
  let e' := { e with queue := q' }
  match queue_current_id q' with
  | some id => handlePlay lib e' id
  | none => (e', [])

/-- engine.rs advance_queue. -/
def advance_queue (lib : String → Option LibEntry) (e : Engine) :
    Engine × List AudioCall :=
  let rep := e.state.repeatMode
  if e.queue.items.isEmpty then (e, [])
  else if rep = "one" then
    match queue_current_id e.queue with
    | some id => handlePlay lib e id
    | none => (e, [])
  else
    let index := e.queue.index + 1
    if e.queue.items.length ≤ index then
      if rep = "all" then advanceTo lib e 0
      else ({ state := default_playback_state, queue := e.queue },
            [AudioCall.stop])
    else advanceTo lib e index

/-- engine.rs retreat_queue. -/
def retreat_queue (lib : String → Option LibEntry) (e : Engine) :
    Engine × List AudioCall :=
  if e.queue.items.isEmpty then (e, [])
  else
    let index := e.queue.index
    let new_index := if 0 < index then index - 1 else e.queue.items.length - 1
    advanceTo lib e new_index

/-- engine.rs handle_playback.  `pos` is what audio.position_ms()
returns at dispatch time; `seed` the wall-clock nanosecond RNG seed used
if a shuffle order must be generated. -/
def handle_playback (lib : String → Option LibEntry) (pos seed : Nat)
    (e : Engine) : PlaybackCmd → Engine × List AudioCall
  | .play id => handlePlay lib e id
  | .pause =>
    ({ e with state := { e.state with playing := false } }, [AudioCall.pause])
  | .resume =>
    ({ e with state := { e.state with playing := true } }, [AudioCall.resume])
  | .stop => ({ e with state := default_playback_state }, [AudioCall.stop])
  | .seek ms =>
    ({ e with state := { e.state with position_ms := ms } }, [AudioCall.seek ms])
  | .setVolume v =>
    ({ e with state := { e.state with volume := v } }, [AudioCall.setVolume v])
  | .next => advance_queue lib e
  | .previous =>
    if 3000 < pos then
      ({ e with state := { e.state with position_ms := 0 } },
       [AudioCall.seek 0])
    else retreat_queue lib e
  | .setShuffle enabled =>
    let st' := { e.state with shuffle := enabled }
    let q := e.queue
    let q' :=
      if enabled then
        { q with shuffle := true
                 shuffle_order :=
                   some (generate_shuffle_order seed q.items.length q.index)
                 index := 0 }
      else
        let idx :=
          match q.shuffle_order with
          | some order =>
            match order[q.index]? with
            | some actual => actual
            | none => q.index
          | none => q.index
        { q with shuffle := false, index := idx, shuffle_order := none }
    ({ state := st', queue := q' }, [])
  | .setRepeat mode =>
    ({ e with state := { e.state with repeatMode := mode } }, [])

/-! ## Audio pipeline atoms (effects/audio.rs, AudioEffect) -/

/-- The pipeline state atoms touched by the commands under study
(position, the pending-seek sentinel, the integer volume percent, and
the playing/paused flags).  audio.rs documents seek_to_ms as
"Seek target in ms (0 = no seek pending)". -/
structure Pipeline where
  position_ms : Nat
  seek_to_ms : Nat
  volume_pct : Nat
  playing : Bool
  paused : Bool
  deriving DecidableEq, Repr

/-- AudioEffect::seek — only stores the target into the seek_to_ms atom;
the decoder thread performs the actual seek. -/
def Pipeline.seek (p : Pipeline) (position_ms : Nat) : Pipeline :=
  { p with seek_to_ms := position_ms }

/-- AudioEffect::set_volume — `(volume.clamp(0.0, 1.0) * 100.0) as u32`
(truncation of a non-negative value = floor). -/
def Pipeline.set_volume (p : Pipeline) (volume : ℚ) : Pipeline :=
  { p with volume_pct := (⌊min (max volume 0) 1 * 100⌋).toNat }

/-- The pipeline transition for each dispatcher call, per the
AudioEffect methods (restricted to the atoms modelled here; play resets
position/seek and raises playing, stop lowers playing/paused). -/
def applyCall (p : Pipeline) : AudioCall → Pipeline
  | .play _ =>
    { p with playing := true, paused := false, position_ms := 0,
             seek_to_ms := 0 }
  | .pause => { p with paused := true }
  | .resume => { p with paused := false }
  | .stop => { p with playing := false, paused := false }
  | .seek ms => p.seek ms
  | .setVolume v => p.set_volume v

/-- Apply a dispatcher call sequence to the pipeline, left to right. -/
def applyCalls (p : Pipeline) (calls : List AudioCall) : Pipeline :=
  calls.foldl applyCall p

/-- decode_to_ring seek handling (audio.rs, decoder loop): atomically
swap the pending-seek atom with 0, and only when the swapped-out value
is strictly positive seek the source and move position_ms there. -/
def decoderConsumeSeek (p : Pipeline) : Pipeline :=
  let seek_ms := p.seek_to_ms
  let p' := { p with seek_to_ms := 0 }
  if 0 < seek_ms then { p' with position_ms := seek_ms } else p'

/-! ## C1: the Previous command with position_ms > 3000 -/

/-- Concrete playback state used as the C1 failing input: playing track
"a", pipeline and state at 5000 ms. -/
def c1State : PlaybackState :=
  { default_playback_state with
    playing := true
    current_id := some "a"
    position_ms := 5000 }

/-- C1 (bug evidence): with the pipeline at 5000 ms, dispatching
Previous issues audio.seek(0) and zeroes position_ms in the state
document, leaving the queue untouched — but the decoder swaps the
pending-seek atom and ignores a value of 0 (its "no seek pending"
sentinel), so the pipeline position stays at 5000 ms and the track is
not restarted, contrary to the specified restart-current-track
behavior. -/
theorem previous_seek_zero_ignored :
    (handle_playback (fun _ => none) 5000 0
        ⟨c1State, ⟨["a", "b"], 0, false, none⟩⟩ .previous).2
      = [AudioCall.seek 0]
    ∧ (handle_playback (fun _ => none) 5000 0
        ⟨c1State, ⟨["a", "b"], 0, false, none⟩⟩ .previous).1.state.position_ms
      = 0
    ∧ (handle_playback (fun _ => none) 5000 0
        ⟨c1State, ⟨["a", "b"], 0, false, none⟩⟩ .previous).1.queue
      = ⟨["a", "b"], 0, false, none⟩
    ∧ decoderConsumeSeek (applyCalls ⟨5000, 0, 80, true, false⟩
        [AudioCall.seek 0]) = ⟨5000, 0, 80, true, false⟩
    ∧ (decoderConsumeSeek (applyCalls ⟨5000, 0, 80, true, false⟩
        [AudioCall.seek 0])).position_ms = 5000
    ∧ decoderConsumeSeek (Pipeline.seek ⟨5000, 0, 80, true, false⟩ 4000)
      = ⟨4000, 0, 80, true, false⟩ :=
  ⟨rfl, rfl, rfl, rfl, rfl, rfl⟩

/-! ## C2: advance at the end of the queue -/

/-- handlePlay never touches the queue document. -/
theorem handlePlay_queue (lib : String → Option LibEntry) (e : Engine)
    (id : String) : (handlePlay lib e id).1.queue = e.queue := by
  unfold handlePlay
  cases lib id with
  | none => rfl
  | some entry =>
    cases hp : entry.path with
    | none => simp [hp]
    | some fp => simp [hp]

/-- advanceTo stores the given index and otherwise only dispatches
Play. -/
theorem advanceTo_queue (lib : String → Option LibEntry) (e : Engine)
    (i : Nat) : (advanceTo lib e i).1.queue = { e.queue with index := i } := by
  unfold advanceTo
  cases h : queue_current_id { e.queue with index := i } with
  | none => simp [h]
  | some id => simp [h, handlePlay_queue]

/-- C2: on a non-empty queue positioned at the last index, advance with
repeat=off stops the pipeline and resets the state document to defaults
(playing=false, current_id absent) leaving the queue untouched; with
repeat=all it wraps the index to 0 and dispatches Play for the resolved
current id; with repeat=one it dispatches Play for the current id
without touching the queue. -/
theorem advance_at_queue_end (lib : String → Option LibEntry)
    (st : PlaybackState) (q : QueueState) (n : Nat)
    (hn : q.items.length = n) (h0 : 0 < n) (hidx : q.index = n - 1) :
    (st.repeatMode ≠ "one" → st.repeatMode ≠ "all" →
      advance_queue lib ⟨st, q⟩
        = (⟨default_playback_state, q⟩, [AudioCall.stop])
      ∧ default_playback_state.playing = false
      ∧ default_playback_state.current_id = none)
    ∧ (st.repeatMode = "all" →
      advance_queue lib ⟨st, q⟩
        = (match queue_current_id { q with index := 0 } with
           | some id => handlePlay lib ⟨st, { q with index := 0 }⟩ id
           | none => (⟨st, { q with index := 0 }⟩, []))
      ∧ (advance_queue lib ⟨st, q⟩).1.queue.index = 0
      ∧ (advance_queue lib ⟨st, q⟩).1.queue.items = q.items)
    ∧ (st.repeatMode = "one" →
      advance_queue lib ⟨st, q⟩
        = (match queue_current_id q with
           | some id => handlePlay lib ⟨st, q⟩ id
           | none => (⟨st, q⟩, []))
      ∧ (advance_queue lib ⟨st, q⟩).1.queue = q) := by
  have hnil : q.items.isEmpty = false := by
    rw [List.isEmpty_eq_false_iff_exists_mem]
    cases hq : q.items with
    | nil => rw [hq] at hn; simp at hn; omega
    | cons x t => exact ⟨x, by simp⟩
  have hsucc : q.items.length ≤ q.index + 1 := by omega
  refine ⟨?_, ?_, ?_⟩
  · intro h1 h2
    refine ⟨?_, rfl, rfl⟩
    unfold advance_queue
    simp only [hnil, Bool.false_eq_true, if_false, if_neg h1,
      if_pos hsucc, if_neg h2]
  · intro hall
    have heq : advance_queue lib ⟨st, q⟩ = advanceTo lib ⟨st, q⟩ 0 := by
      unfold advance_queue
      have hone : st.repeatMode ≠ "one" := by rw [hall]; decide
      simp only [hnil, Bool.false_eq_true, if_false, if_neg hone,
        if_pos hsucc, if_pos hall]
    refine ⟨?_, ?_, ?_⟩
    · rw [heq]; rfl
    · rw [heq, advanceTo_queue]
    · rw [heq, advanceTo_queue]
  · intro hone
    have heq : advance_queue lib ⟨st, q⟩
        = (match queue_current_id q with
           | some id => handlePlay lib ⟨st, q⟩ id
           | none => (⟨st, q⟩, [])) := by
      unfold advance_queue
      simp only [hnil, Bool.false_eq_true, if_false, if_pos hone]
    refine ⟨heq, ?_⟩
    rw [heq]
    cases queue_current_id q with
    | none => rfl
    | some id => rw [handlePlay_queue]

/-- Witness for C2: queue [a, b] at index 1 with repeat=off (the spec
scenario "Next stops playback, queue unchanged"). -/
theorem advance_at_queue_end_witness :
    advance_queue (fun _ => none)
        ⟨default_playback_state, ⟨["a", "b"], 1, false, none⟩⟩
      = (⟨default_playback_state, ⟨["a", "b"], 1, false, none⟩⟩,
         [AudioCall.stop]) :=
  ((advance_at_queue_end (fun _ => none) default_playback_state
      ⟨["a", "b"], 1, false, none⟩ 2 rfl (by decide) rfl).1
    (by decide) (by decide)).1

/-! ## C3: set_volume -/

/-- C3 (amended): dispatching set_volume{v} sends v to the pipeline —
which stores the clamped integer percent floor(clamp(v,0,1)·100), always
at most 100 — while the state document's volume field receives the raw
value v, not the clamped one. -/
theorem set_volume_updates (lib : String → Option LibEntry)
    (pos seed : Nat) (e : Engine) (p : Pipeline) (v : ℚ) :
    handle_playback lib pos seed e (.setVolume v)
      = ({ e with state := { e.state with volume := v } },
         [AudioCall.setVolume v])
    ∧ (applyCalls p (handle_playback lib pos seed e (.setVolume v)).2).volume_pct
      = (⌊min (max v 0) 1 * 100⌋).toNat
    ∧ (applyCalls p (handle_playback lib pos seed e (.setVolume v)).2).volume_pct
      ≤ 100 := by
  refine ⟨rfl, rfl, ?_⟩
  show (⌊min (max v 0) 1 * 100⌋).toNat ≤ 100
  have h1 : min (max v 0) 1 * 100 ≤ (100 : ℚ) := by
    have := min_le_right (max v 0) 1
    nlinarith
  have h2 : (⌊min (max v 0) 1 * 100⌋ : ℤ) ≤ 100 := by
    have h3 := Int.floor_le_floor h1
    simpa using h3
  omega

/-- C3 counterexample: set_volume{2} leaves volume = 2 in the state
document, while the clamped value the claim requires is 1. -/
theorem set_volume_clamp_counterexample :
    (handle_playback (fun _ => none) 0 0
        ⟨default_playback_state, default_queue_state⟩
        (.setVolume 2)).1.state.volume = 2
    ∧ min (max (2 : ℚ) 0) 1 = 1
    ∧ (handle_playback (fun _ => none) 0 0
        ⟨default_playback_state, default_queue_state⟩
        (.setVolume 2)).1.state.volume ≠ min (max (2 : ℚ) 0) 1 := by
  refine ⟨rfl, by norm_num, ?_⟩
  intro h
  rw [show (handle_playback (fun _ => none) 0 0
      ⟨default_playback_state, default_queue_state⟩
      (.setVolume 2)).1.state.volume = 2 from rfl] at h
  norm_num at h

/-! ## Shuffle claims -/

theorem fyLoop_length (i s : Nat) (l : List Nat) :
    (fyLoop s i l).length = l.length :=
  (fyLoop_perm i s l).length_eq

/-- When the current index is out of range nothing is filtered out. -/
theorem filter_ne_out_of_range (len k : Nat) (h : len ≤ k) :
    (List.range len).filter (fun i => i != k) = List.range len := by
  apply List.filter_eq_self.mpr
  intro a ha
  simp only [bne_iff_ne, ne_eq]
  have := List.mem_range.mp ha
  omega

/-- C4: for every queue size n > 0 and current index k < n, the
generated shuffle order is a permutation of `[0, n)` whose first element
is k, for every RNG seed. -/
theorem shuffle_order_is_permutation (seed n k : Nat) (hn : 0 < n)
    (hk : k < n) :
    List.Perm (generate_shuffle_order seed n k) (List.range n)
    ∧ (generate_shuffle_order seed n k).head? = some k :=
  ⟨generate_shuffle_order_perm seed n k hk, rfl⟩

/-- Witness for C4 at seed 123456789, n = 5, k = 2. -/
theorem shuffle_order_is_permutation_witness :
    (0 < 5 ∧ 2 < 5)
    ∧ (List.Perm (generate_shuffle_order 123456789 5 2) (List.range 5)
       ∧ (generate_shuffle_order 123456789 5 2).head? = some 2) :=
  ⟨by decide, shuffle_order_is_permutation 123456789 5 2 (by decide)
    (by decide)⟩

/-- C5: enabling then disabling shuffle restores the original index,
removes shuffle_order, and leaves shuffle false, for any pair of RNG
seeds. -/
theorem set_shuffle_roundtrip (lib : String → Option LibEntry)
    (pos seed1 seed2 : Nat) (st : PlaybackState) (q : QueueState)
    (hsh : q.shuffle = false) (hk : q.index < q.items.length) :
    ((handle_playback lib pos seed2
        (handle_playback lib pos seed1 ⟨st, q⟩ (.setShuffle true)).1
        (.setShuffle false)).1.queue.index = q.index)
    ∧ ((handle_playback lib pos seed2
        (handle_playback lib pos seed1 ⟨st, q⟩ (.setShuffle true)).1
        (.setShuffle false)).1.queue.shuffle_order = none)
    ∧ ((handle_playback lib pos seed2
        (handle_playback lib pos seed1 ⟨st, q⟩ (.setShuffle true)).1
        (.setShuffle false)).1.queue.shuffle = false)
    ∧ ((handle_playback lib pos seed2
        (handle_playback lib pos seed1 ⟨st, q⟩ (.setShuffle true)).1
        (.setShuffle false)).1.state.shuffle = false)
    ∧ ((handle_playback lib pos seed2
        (handle_playback lib pos seed1 ⟨st, q⟩ (.setShuffle true)).1
        (.setShuffle false)).1.queue.items = q.items) := by
  simp [handle_playback, generate_shuffle_order]

/-- Witness for C5 on queue [a, b, c] at index 1. -/
theorem set_shuffle_roundtrip_witness :
    ((⟨["a", "b", "c"], 1, false, none⟩ : QueueState).shuffle = false
     ∧ (⟨["a", "b", "c"], 1, false, none⟩ : QueueState).index
        < (["a", "b", "c"] : List String).length)
    ∧ ((handle_playback (fun _ => none) 0 55
        (handle_playback (fun _ => none) 0 44
          ⟨default_playback_state, ⟨["a", "b", "c"], 1, false, none⟩⟩
          (.setShuffle true)).1
        (.setShuffle false)).1.queue.index
       = (⟨["a", "b", "c"], 1, false, none⟩ : QueueState).index) :=
  ⟨⟨rfl, by decide⟩,
   (set_shuffle_roundtrip (fun _ => none) 0 44 55 default_playback_state
     ⟨["a", "b", "c"], 1, false, none⟩ rfl (by decide)).1⟩

/-- C10: with the current index out of range (k ≥ len, including the
empty queue) the generated order has length len + 1 with head k, hence
is not a permutation of `[0, len)`; dispatching set_shuffle true on an
empty queue (index 0) stores shuffle_order = [0] and index = 0. -/
theorem shuffle_order_out_of_range (seed len k : Nat) (hk : len ≤ k) :
    (generate_shuffle_order seed len k).length = len + 1
    ∧ (generate_shuffle_order seed len k).head? = some k
    ∧ ¬ List.Perm (generate_shuffle_order seed len k) (List.range len)
    ∧ ∀ (lib : String → Option LibEntry) (pos : Nat) (st : PlaybackState)
        (q : QueueState), q.items = [] → q.index = 0 →
        (handle_playback lib pos seed ⟨st, q⟩
            (.setShuffle true)).1.queue.shuffle_order = some [0]
        ∧ (handle_playback lib pos seed ⟨st, q⟩
            (.setShuffle true)).1.queue.index = 0 := by
  have hlen : (generate_shuffle_order seed len k).length = len + 1 := by
    unfold generate_shuffle_order
    simp [fyLoop_length, filter_ne_out_of_range len k hk]
  refine ⟨hlen, rfl, ?_, ?_⟩
  · intro hperm
    have h1 := hperm.length_eq
    rw [hlen, List.length_range] at h1
    omega
  · intro lib pos st q hitems hidx
    constructor
    · simp [handle_playback, hitems, hidx]
      unfold generate_shuffle_order
      simp [fyLoop]
    · simp [handle_playback]

/-- Witness for C10 at len = 0, k = 0 (the empty queue). -/
theorem shuffle_order_out_of_range_witness :
    (0 ≤ 0)
    ∧ ((handle_playback (fun _ => none) 0 99
        ⟨default_playback_state, default_queue_state⟩
        (.setShuffle true)).1.queue.shuffle_order = some [0]
      ∧ (handle_playback (fun _ => none) 0 99
        ⟨default_playback_state, default_queue_state⟩
        (.setShuffle true)).1.queue.index = 0) :=
  ⟨by decide,
   (shuffle_order_out_of_range 99 0 0 (by decide)).2.2.2
     (fun _ => none) 0 default_playback_state default_queue_state rfl rfl⟩

/-! ## Sample ring (effects/audio.rs, SampleRing) -/

/-- The fields of SampleRing: sample storage of fixed capacity, read and
write cursors, and the stored length. -/
structure SampleRing where
  buf : List ℚ
  read_pos : Nat
  write_pos : Nat
  len : Nat

/-- SampleRing::new — a zeroed buffer of the given capacity. -/
def SampleRing.new (capacity : Nat) : SampleRing :=
  ⟨List.replicate capacity 0, 0, 0, 0⟩

/-- One iteration of SampleRing::push's loop: store the sample at
write_pos when there is room, else drop it silently. -/
def SampleRing.push1 (r : SampleRing) (s : ℚ) : SampleRing :=
  if r.len < r.buf.length then
    { r with
      buf := r.buf.set r.write_pos s
      write_pos := (r.write_pos + 1) % r.buf.length
      len := r.len + 1 }
  else r

/-- SampleRing::push — fold the per-sample loop over the input. -/
def SampleRing.push (r : SampleRing) (samples : List ℚ) : SampleRing :=
  samples.foldl SampleRing.push1 r

/-- One read step of SampleRing::pull: the sample at read_pos, with the
cursor advanced and len decremented. -/
def SampleRing.pull1 (r : SampleRing) : SampleRing × ℚ :=
  ({ r with read_pos := (r.read_pos + 1) % r.buf.length, len := r.len - 1 },
   r.buf.getD r.read_pos 0)

/-- The first loop of SampleRing::pull: read n stored samples in FIFO
order. -/
def SampleRing.readSeq : SampleRing → Nat → SampleRing × List ℚ
  | r, 0 => (r, [])
  | r, n + 1 =>
    ((SampleRing.readSeq r.pull1.1 n).1,
     r.pull1.2 :: (SampleRing.readSeq r.pull1.1 n).2)

/-- SampleRing::pull into a buffer of length m: copy n = min(m, len)
real samples, zero-fill the remainder, return n. -/
def SampleRing.pull (r : SampleRing) (m : Nat) : SampleRing × List ℚ × Nat :=
  let n := min m r.len
  ((SampleRing.readSeq r n).1,
   (SampleRing.readSeq r n).2 ++ List.replicate (m - n) 0, n)

/-- SampleRing::clear — reset both cursors and the length. -/
def SampleRing.clear (r : SampleRing) : SampleRing :=
  { r with read_pos := 0, write_pos := 0, len := 0 }

/-- Ring well-formedness: the stored length fits the buffer, the write
cursor equals read cursor plus length modulo capacity, and the read
cursor is in range (pinned to 0 for the degenerate capacity-0 ring). -/
def SampleRing.Wf (r : SampleRing) : Prop :=
  r.len ≤ r.buf.length
  ∧ r.write_pos = (r.read_pos + r.len) % r.buf.length
  ∧ (r.read_pos < r.buf.length ∨ (r.buf.length = 0 ∧ r.read_pos = 0))

/-- The abstract FIFO contents of the ring: the len stored samples
starting at read_pos, oldest first. -/
def SampleRing.contents (r : SampleRing) : List ℚ :=
  (List.range r.len).map fun i =>
    r.buf.getD ((r.read_pos + i) % r.buf.length) 0

/-- An operation in an arbitrary client sequence against the ring. -/
inductive RingOp where
  | push (samples : List ℚ)
  | pull (m : Nat)
  | clear

/-- Run one ring operation (pull discards the output buffer). -/
def execOp (r : SampleRing) : RingOp → SampleRing
  | .push xs => r.push xs
  | .pull m => (r.pull m).1
  | .clear => r.clear

/-- Run a sequence of ring operations. -/
def execOps (r : SampleRing) (ops : List RingOp) : SampleRing :=
  ops.foldl execOp r

theorem contents_length (r : SampleRing) : r.contents.length = r.len := by
  simp [SampleRing.contents]

theorem push1_spec (r : SampleRing) (s : ℚ) (hwf : r.Wf)
    (h : r.len < r.buf.length) :
    (r.push1 s).Wf ∧ (r.push1 s).len = r.len + 1
    ∧ (r.push1 s).buf.length = r.buf.length
    ∧ (r.push1 s).read_pos = r.read_pos
    ∧ (r.push1 s).contents = r.contents ++ [s] := by
  obtain ⟨hlen, hw, hr⟩ := hwf
  have hc : 0 < r.buf.length := Nat.lt_of_le_of_lt (Nat.zero_le _) h
  have hrlt : r.read_pos < r.buf.length := by
    rcases hr with h1 | ⟨h1, _⟩
    · exact h1
    · omega
  have hbuf : (r.buf.set r.write_pos s).length = r.buf.length := by
    simp
  rw [SampleRing.push1, if_pos h]
  refine ⟨⟨?_, ?_, ?_⟩, rfl, hbuf, rfl, ?_⟩
  · simpa [hbuf] using h
  · show (r.write_pos + 1) % r.buf.length
      = (r.read_pos + (r.len + 1)) % (r.buf.set r.write_pos s).length
    rw [hbuf, hw, Nat.mod_add_mod, Nat.add_assoc]
  · left
    simpa [hbuf] using hrlt
  · show (List.range (r.len + 1)).map (fun i =>
        (r.buf.set r.write_pos s).getD
          ((r.read_pos + i) % (r.buf.set r.write_pos s).length) 0)
      = r.contents ++ [s]
    rw [hbuf, List.range_succ, List.map_append]
    congr 1
    · apply List.map_congr_left
      intro i hi
      have hilt : i < r.len := List.mem_range.mp hi
      have hne : (r.read_pos + i) % r.buf.length ≠ r.write_pos := by
        rw [hw]
        intro heq
        have hmod : i % r.buf.length = r.len % r.buf.length :=
          Nat.ModEq.add_left_cancel' r.read_pos heq
        rw [Nat.mod_eq_of_lt (by omega), Nat.mod_eq_of_lt h] at hmod
        omega
      show (r.buf.set r.write_pos s).getD ((r.read_pos + i) % r.buf.length) 0
        = r.buf.getD ((r.read_pos + i) % r.buf.length) 0
      rw [List.getD_eq_getElem?_getD, List.getD_eq_getElem?_getD,
        List.getElem?_set_ne (fun hx => hne hx.symm)]
    · show [(r.buf.set r.write_pos s).getD ((r.read_pos + r.len) % r.buf.length) 0]
        = [s]
      rw [← hw, List.getD_eq_getElem?_getD]
      have hwlt : r.write_pos < r.buf.length := by
        rw [hw]
        exact Nat.mod_lt _ hc
      rw [List.getElem?_set_self (by simpa using hwlt)]
      rfl

theorem push_spec (xs : List ℚ) (r : SampleRing) (hwf : r.Wf) :
    (r.push xs).Wf
    ∧ (r.push xs).buf.length = r.buf.length
    ∧ (r.push xs).read_pos = r.read_pos
    ∧ (r.push xs).len = min r.buf.length (r.len + xs.length)
    ∧ (r.push xs).contents = r.contents ++ xs.take (r.buf.length - r.len) := by
  induction xs generalizing r with
  | nil =>
    refine ⟨hwf, rfl, rfl, ?_, by simp [SampleRing.push]⟩
    have := hwf.1
    simp only [SampleRing.push, List.foldl_nil, List.length_nil]
    omega
  | cons x xs ih =>
    by_cases h : r.len < r.buf.length
    · obtain ⟨hwf1, hlen1, hbuf1, hread1, hcon1⟩ := push1_spec r x hwf h
      have hpush : r.push (x :: xs) = (r.push1 x).push xs := rfl
      obtain ⟨ha, hb, hc2, hd, he⟩ := ih (r.push1 x) hwf1
      rw [hpush]
      refine ⟨ha, by rw [hb, hbuf1], by rw [hc2, hread1], ?_, ?_⟩
      · rw [hd, hlen1, hbuf1]
        simp only [List.length_cons]
        congr 1
        omega
      · rw [he, hcon1, hbuf1, hlen1]
        have htake : r.buf.length - r.len = (r.buf.length - (r.len + 1)) + 1 := by
          omega
        rw [htake, List.take_succ_cons, List.append_assoc]
        rfl
    · have heq : r.len = r.buf.length := by
        have := hwf.1
        omega
      have hstay : r.push1 x = r := by
        rw [SampleRing.push1, if_neg h]
      have hpush : r.push (x :: xs) = (r.push1 x).push xs := rfl
      rw [hpush, hstay]
      obtain ⟨ha, hb, hc2, hd, he⟩ := ih r hwf
      refine ⟨ha, hb, hc2, ?_, ?_⟩
      · rw [hd]
        simp only [List.length_cons]
        omega
      · rw [he, heq]
        simp

theorem pull1_spec (r : SampleRing) (hwf : r.Wf) (h : 0 < r.len) :
    r.pull1.1.Wf
    ∧ r.pull1.1.buf = r.buf
    ∧ r.pull1.1.len = r.len - 1
    ∧ r.contents = r.pull1.2 :: r.pull1.1.contents := by
  obtain ⟨hlen, hw, hr⟩ := hwf
  have hc : 0 < r.buf.length := by omega
  have hrlt : r.read_pos < r.buf.length := by
    rcases hr with h1 | ⟨h1, _⟩
    · exact h1
    · omega
  refine ⟨⟨by simp [SampleRing.pull1]; omega, ?_, ?_⟩, rfl, rfl, ?_⟩
  · show r.write_pos = ((r.read_pos + 1) % r.buf.length + (r.len - 1)) % r.buf.length
    rw [Nat.mod_add_mod, hw]
    congr 1
    omega
  · left
    exact Nat.mod_lt _ hc
  · show r.contents = r.buf.getD r.read_pos 0 :: r.pull1.1.contents
    unfold SampleRing.contents
    obtain ⟨k, hk⟩ : ∃ k, r.len = k + 1 := ⟨r.len - 1, by omega⟩
    rw [hk, List.range_succ_eq_map, List.map_cons, List.map_map]
    congr 1
    · rw [Nat.add_zero, Nat.mod_eq_of_lt hrlt]
    · show (List.range k).map (fun i =>
          r.buf.getD ((r.read_pos + (i + 1)) % r.buf.length) 0)
        = (List.range r.pull1.1.len).map (fun i =>
          r.buf.getD ((r.pull1.1.read_pos + i) % r.buf.length) 0)
      have hlen1 : r.pull1.1.len = k := by
        show r.len - 1 = k
        omega
      rw [hlen1]
      apply List.map_congr_left
      intro i _
      show r.buf.getD ((r.read_pos + (i + 1)) % r.buf.length) 0
        = r.buf.getD (((r.read_pos + 1) % r.buf.length + i) % r.buf.length) 0
      rw [Nat.mod_add_mod]
      congr 2
      omega

theorem readSeq_spec (n : Nat) (r : SampleRing) (hwf : r.Wf)
    (h : n ≤ r.len) :
    (SampleRing.readSeq r n).1.Wf
    ∧ (SampleRing.readSeq r n).1.buf = r.buf
    ∧ (SampleRing.readSeq r n).1.len = r.len - n
    ∧ (SampleRing.readSeq r n).2 = r.contents.take n
    ∧ (SampleRing.readSeq r n).1.contents = r.contents.drop n := by
  induction n generalizing r with
  | zero => exact ⟨hwf, rfl, by simp [SampleRing.readSeq], by
      simp [SampleRing.readSeq], by simp [SampleRing.readSeq]⟩
  | succ n ih =>
    have hpos : 0 < r.len := by omega
    obtain ⟨hwf1, hbuf1, hlen1, hcons⟩ := pull1_spec r hwf hpos
    obtain ⟨ha, hb, hc2, hd, he⟩ := ih r.pull1.1 hwf1 (by omega)
    rw [SampleRing.readSeq]
    refine ⟨ha, by rw [hb, hbuf1], ?_, ?_, ?_⟩
    · rw [hc2, hlen1]
      omega
    · show r.pull1.2 :: (SampleRing.readSeq r.pull1.1 n).2
        = r.contents.take (n + 1)
      rw [hd, hcons, List.take_succ_cons]
    · rw [he, hcons, List.drop_succ_cons]

/-- Full specification of pull on a well-formed ring. -/
theorem pull_spec (r : SampleRing) (m : Nat) (hwf : r.Wf) :
    (r.pull m).2.2 = min m r.len
    ∧ (r.pull m).2.1
      = r.contents.take (min m r.len)
        ++ List.replicate (m - min m r.len) 0
    ∧ (r.pull m).1.contents = r.contents.drop (min m r.len)
    ∧ (r.pull m).1.Wf
    ∧ (r.pull m).1.buf = r.buf := by
  obtain ⟨ha, hb, hc2, hd, he⟩ :=
    readSeq_spec (min m r.len) r hwf (Nat.min_le_right _ _)
  refine ⟨rfl, ?_, he, ha, hb⟩
  show (SampleRing.readSeq r (min m r.len)).2
      ++ List.replicate (m - min m r.len) 0
    = r.contents.take (min m r.len) ++ List.replicate (m - min m r.len) 0
  rw [hd]

theorem new_wf (c : Nat) :
    (SampleRing.new c).Wf ∧ (SampleRing.new c).buf.length = c := by
  refine ⟨⟨by simp [SampleRing.new], by simp [SampleRing.new], ?_⟩,
    by simp [SampleRing.new]⟩
  rcases Nat.eq_zero_or_pos c with h | h
  · right
    simp [SampleRing.new, h]
  · left
    simp [SampleRing.new]
    omega

theorem clear_wf (r : SampleRing) :
    r.clear.Wf ∧ r.clear.buf = r.buf := by
  refine ⟨⟨by simp [SampleRing.clear], by simp [SampleRing.clear], ?_⟩, rfl⟩
  rcases Nat.eq_zero_or_pos r.buf.length with h | h
  · right
    exact ⟨h, rfl⟩
  · left
    simpa [SampleRing.clear] using h

theorem execOp_wf (r : SampleRing) (op : RingOp) (hwf : r.Wf) :
    (execOp r op).Wf ∧ (execOp r op).buf.length = r.buf.length := by
  cases op with
  | push xs =>
    obtain ⟨h1, h2, _, _, _⟩ := push_spec xs r hwf
    exact ⟨h1, h2⟩
  | pull m =>
    obtain ⟨_, _, _, h1, h2⟩ := pull_spec r m hwf
    exact ⟨h1, by rw [execOp, h2]⟩
  | clear =>
    obtain ⟨h1, h2⟩ := clear_wf r
    exact ⟨h1, by rw [execOp, h2]⟩

theorem execOps_wf (ops : List RingOp) (r : SampleRing) (hwf : r.Wf) :
    (execOps r ops).Wf ∧ (execOps r ops).buf.length = r.buf.length := by
  induction ops generalizing r with
  | nil => exact ⟨hwf, rfl⟩
  | cons op ops ih =>
    obtain ⟨h1, h2⟩ := execOp_wf r op hwf
    obtain ⟨h3, h4⟩ := ih (execOp r op) h1
    exact ⟨h3, by rw [execOps] at h4 ⊢; simpa [List.foldl_cons, h2] using h4⟩

/-- C6: for a ring of capacity c after any sequence of push/pull/clear
operations, the stored length never exceeds c; push appends to the FIFO
contents exactly the samples that fit (c − len), silently dropping the
excess; pull of a buffer of size m returns min(m, len) as the count of
real samples, yields the oldest min(m, len) stored samples in push
order followed by m − min(m, len) zeros, and removes exactly those
samples from the front. -/
theorem sample_ring_spec (c : Nat) (ops : List RingOp) :
    (execOps (SampleRing.new c) ops).len ≤ c
    ∧ (execOps (SampleRing.new c) ops).buf.length = c
    ∧ (execOps (SampleRing.new c) ops).contents.length
      = (execOps (SampleRing.new c) ops).len
    ∧ (∀ xs, ((execOps (SampleRing.new c) ops).push xs).len
        = min c ((execOps (SampleRing.new c) ops).len + xs.length)
      ∧ ((execOps (SampleRing.new c) ops).push xs).contents
        = (execOps (SampleRing.new c) ops).contents
          ++ xs.take (c - (execOps (SampleRing.new c) ops).len))
    ∧ (∀ m, ((execOps (SampleRing.new c) ops).pull m).2.2
        = min m (execOps (SampleRing.new c) ops).len
      ∧ ((execOps (SampleRing.new c) ops).pull m).2.1
        = (execOps (SampleRing.new c) ops).contents.take
            (min m (execOps (SampleRing.new c) ops).len)
          ++ List.replicate
            (m - min m (execOps (SampleRing.new c) ops).len) 0
      ∧ ((execOps (SampleRing.new c) ops).pull m).1.contents
        = (execOps (SampleRing.new c) ops).contents.drop
            (min m (execOps (SampleRing.new c) ops).len)) := by
  obtain ⟨hwf0, hc0⟩ := new_wf c
  obtain ⟨hwf, hc⟩ := execOps_wf ops (SampleRing.new c) hwf0
  rw [hc0] at hc
  refine ⟨le_of_le_of_eq hwf.1 hc, hc, contents_length _, ?_, ?_⟩
  · intro xs
    obtain ⟨_, _, _, h4, h5⟩ := push_spec xs (execOps (SampleRing.new c) ops) hwf
    rw [hc] at h4 h5
    exact ⟨h4, h5⟩
  · intro m
    obtain ⟨h1, h2, h3, _, _⟩ := pull_spec (execOps (SampleRing.new c) ops) m hwf
    exact ⟨h1, h2, h3⟩

/-! ## Channel adaptation (effects/audio.rs, adapt_channels) -/

/-- The dst_ch samples that adapt_channels writes for frame f: mono is
duplicated to every output channel; several source channels collapse to
mono by arithmetic mean; otherwise the first min(src, dst) channels are
copied and the remaining destination channels zero-filled.  Out-of-range
source reads yield 0 exactly as the code's bounds checks do. -/
def adaptFrame (src : List ℚ) (src_ch dst_ch f : Nat) : List ℚ :=
  let src_off := f * src_ch
  if src_ch = 1 ∧ 2 ≤ dst_ch then
    List.replicate dst_ch (src.getD src_off 0)
  else if 2 ≤ src_ch ∧ dst_ch = 1 then
    let n := min src_ch (src.length - src_off)
    [if 0 < n then
        (((List.range n).map fun c => src.getD (src_off + c) 0).sum) / (n : ℚ)
      else 0]
  else
    let copy_ch := min src_ch dst_ch
    (((List.range copy_ch).map fun c => src.getD (src_off + c) 0))
      ++ List.replicate (dst_ch - copy_ch) 0

/-- audio.rs adapt_channels: frame-by-frame adaptation of interleaved
samples into the destination buffer; destination positions beyond the
last whole frame are left as they were. -/
def adapt_channels (src : List ℚ) (src_ch : Nat) (dst : List ℚ)
    (dst_ch : Nat) : List ℚ :=
  let frames := dst.length / dst_ch
  ((List.range frames).map (adaptFrame src src_ch dst_ch)).join
    ++ dst.drop (frames * dst_ch)

/-- Every adapted frame has exactly dst_ch samples. -/
theorem adaptFrame_length (src : List ℚ) (src_ch dst_ch f : Nat) :
    (adaptFrame src src_ch dst_ch f).length = dst_ch := by
  unfold adaptFrame
  split_ifs with h1 h2
  · simp
  · simp [h2.2]
  · simp

theorem join_length_of (l : List (List ℚ)) (d : Nat)
    (hl : ∀ x ∈ l, x.length = d) : l.join.length = l.length * d := by
  induction l with
  | nil => simp
  | cons x t ih =>
    have hx : x.length = d := hl x (by simp)
    have ht : t.join.length = t.length * d :=
      ih fun y hy => hl y (by simp [hy])
    simp only [List.join_cons, List.length_append, List.length_cons, hx, ht]
    ring

theorem join_getD_of_length (l : List (List ℚ)) (d : Nat)
    (hl : ∀ x ∈ l, x.length = d) (f c : Nat) (hf : f < l.length)
    (hc : c < d) :
    l.join.getD (f * d + c) 0 = (l.getD f []).getD c 0 := by
  induction l generalizing f with
  | nil => simp at hf
  | cons x t ih =>
    have hx : x.length = d := hl x (by simp)
    cases f with
    | zero =>
      simp only [List.join_cons, Nat.zero_mul, Nat.zero_add]
      rw [List.getD_append _ _ _ _ (by omega), List.getD_cons_zero]
    | succ f =>
      simp only [List.join_cons]
      have hge : x.length ≤ (f + 1) * d + c := by
        rw [hx]
        calc d ≤ (f + 1) * d := Nat.le_mul_of_pos_left d (Nat.succ_pos f)
          _ ≤ (f + 1) * d + c := Nat.le_add_right _ _
      rw [List.getD_append_right _ _ _ _ hge, List.getD_cons_succ]
      have hidx : (f + 1) * d + c - x.length = f * d + c := by
        rw [hx]
        have : (f + 1) * d = f * d + d := by ring
        omega
      rw [hidx]
      exact ih (fun y hy => hl y (by simp [hy])) f
        (by simpa using Nat.lt_of_succ_lt_succ (Nat.succ_lt_succ
          (by simpa using hf)))

/-- Index law for adapt_channels inside the adapted region: position
f·dst_ch + c holds sample c of adapted frame f. -/
theorem adapt_channels_getD (src dst : List ℚ) (src_ch dst_ch frames : Nat)
    (hdc : 0 < dst_ch) (hdst : dst.length = frames * dst_ch)
    (f c : Nat) (hf : f < frames) (hc : c < dst_ch) :
    (adapt_channels src src_ch dst dst_ch).getD (f * dst_ch + c) 0
      = (adaptFrame src src_ch dst_ch f).getD c 0 := by
  have hframes : dst.length / dst_ch = frames := by
    rw [hdst, Nat.mul_div_cancel _ hdc]
  unfold adapt_channels
  rw [hframes]
  have hlenmap : ∀ x ∈ (List.range frames).map (adaptFrame src src_ch dst_ch),
      x.length = dst_ch := by
    intro x hx
    obtain ⟨j, _, rfl⟩ := List.mem_map.mp hx
    exact adaptFrame_length src src_ch dst_ch j
  have hjoinlen : ((List.range frames).map
      (adaptFrame src src_ch dst_ch)).join.length = frames * dst_ch := by
    rw [join_length_of _ dst_ch hlenmap]
    simp
  have hidx : f * dst_ch + c < frames * dst_ch := by
    calc f * dst_ch + c < f * dst_ch + dst_ch := by omega
      _ = (f + 1) * dst_ch := by ring
      _ ≤ frames * dst_ch := Nat.mul_le_mul_right _ (by omega)
  rw [List.getD_append _ _ _ _ (by omega)]
  rw [join_getD_of_length _ dst_ch hlenmap f c (by simpa using hf) hc]
  congr 1
  rw [List.getD_eq_getElem?_getD, List.getElem?_map, List.getElem?_range hf]
  rfl

theorem adapt_channels_length (src dst : List ℚ) (src_ch dst_ch : Nat) :
    (adapt_channels src src_ch dst dst_ch).length = dst.length := by
  unfold adapt_channels
  have hlenmap : ∀ x ∈ (List.range (dst.length / dst_ch)).map
      (adaptFrame src src_ch dst_ch), x.length = dst_ch := by
    intro x hx
    obtain ⟨j, _, rfl⟩ := List.mem_map.mp hx
    exact adaptFrame_length src src_ch dst_ch j
  rw [List.length_append, join_length_of _ dst_ch hlenmap, List.length_drop,
    List.length_map, List.length_range]
  have := Nat.div_mul_le_self dst.length dst_ch
  omega

/-- C7: adapt_channels works frame by frame on interleaved buffers of
equal frame count — mono duplicates to every output channel; several
source channels average to mono; otherwise the first min(src, dst)
channels are copied, remaining destination channels are zero-filled and
extra source channels dropped; equal channel counts pass the buffer
through unchanged. -/
theorem adapt_channels_spec (src dst : List ℚ) (src_ch dst_ch frames : Nat)
    (hdc : 0 < dst_ch) (hdst : dst.length = frames * dst_ch)
    (hsrc : src.length = frames * src_ch) :
    (adapt_channels src src_ch dst dst_ch).length = dst.length
    ∧ (src_ch = 1 → 2 ≤ dst_ch → ∀ f < frames, ∀ c < dst_ch,
        (adapt_channels src src_ch dst dst_ch).getD (f * dst_ch + c) 0
          = src.getD f 0)
    ∧ (2 ≤ src_ch → dst_ch = 1 → ∀ f < frames,
        (adapt_channels src src_ch dst dst_ch).getD f 0
          = (((List.range src_ch).map fun c =>
              src.getD (f * src_ch + c) 0).sum) / (src_ch : ℚ))
    ∧ (¬(src_ch = 1 ∧ 2 ≤ dst_ch) → ¬(2 ≤ src_ch ∧ dst_ch = 1) →
        ∀ f < frames,
        (∀ c < min src_ch dst_ch,
          (adapt_channels src src_ch dst dst_ch).getD (f * dst_ch + c) 0
            = src.getD (f * src_ch + c) 0)
        ∧ (∀ c, min src_ch dst_ch ≤ c → c < dst_ch →
          (adapt_channels src src_ch dst dst_ch).getD (f * dst_ch + c) 0
            = 0))
    ∧ (src_ch = dst_ch → adapt_channels src src_ch dst dst_ch = src) := by
  refine ⟨adapt_channels_length src dst src_ch dst_ch, ?_, ?_, ?_, ?_⟩
  · intro h1 h2 f hf c hc
    rw [adapt_channels_getD src dst src_ch dst_ch frames hdc hdst f c hf hc]
    unfold adaptFrame
    rw [if_pos ⟨h1, h2⟩, List.getD_eq_getElem?_getD,
      List.getElem?_replicate_of_lt hc]
    subst h1
    rw [Nat.mul_one]
    rfl
  · intro h1 h2 f hf
    have hc0 : (0 : Nat) < dst_ch := hdc
    have key := adapt_channels_getD src dst src_ch dst_ch frames hdc hdst
      f 0 hf hc0
    have hidx : f * dst_ch + 0 = f := by
      rw [h2]
      omega
    rw [hidx] at key
    rw [key]
    unfold adaptFrame
    rw [if_neg (by rintro ⟨e, _⟩; omega), if_pos ⟨h1, h2⟩]
    have hsub : src.length - f * src_ch = (frames - f) * src_ch := by
      rw [hsrc, ← Nat.sub_mul]
    have hge : src_ch ≤ src.length - f * src_ch := by
      rw [hsub]
      calc src_ch = 1 * src_ch := (Nat.one_mul _).symm
        _ ≤ (frames - f) * src_ch := Nat.mul_le_mul_right _ (by omega)
    simp only [Nat.min_eq_left hge]
    rw [List.getD_cons_zero, if_pos (by omega : (0 : Nat) < src_ch)]
  · intro hn1 hn2 f hf
    constructor
    · intro c hcmin
      have hc : c < dst_ch := Nat.lt_of_lt_of_le hcmin (Nat.min_le_right _ _)
      rw [adapt_channels_getD src dst src_ch dst_ch frames hdc hdst f c hf hc]
      unfold adaptFrame
      rw [if_neg hn1, if_neg hn2]
      rw [List.getD_append _ _ _ _ (by simpa using hcmin)]
      rw [List.getD_eq_getElem?_getD, List.getElem?_map,
        List.getElem?_range hcmin]
      rfl
    · intro c hge hc
      rw [adapt_channels_getD src dst src_ch dst_ch frames hdc hdst f c hf hc]
      unfold adaptFrame
      rw [if_neg hn1, if_neg hn2]
      rw [List.getD_append_right _ _ _ _ (by simpa using hge)]
      rw [List.getD_eq_getElem?_getD]
      have hlt : c - ((List.range (min src_ch dst_ch)).map fun a =>
          src.getD (f * src_ch + a) 0).length < dst_ch - min src_ch dst_ch := by
        simp only [List.length_map, List.length_range]
        omega
      rw [List.getElem?_replicate_of_lt hlt]
      rfl
  · intro hch
    have hn1 : ¬(src_ch = 1 ∧ 2 ≤ dst_ch) := by
      rintro ⟨e1, e2⟩
      omega
    have hn2 : ¬(2 ≤ src_ch ∧ dst_ch = 1) := by
      rintro ⟨e1, e2⟩
      omega
    have hlen : (adapt_channels src src_ch dst dst_ch).length = src.length := by
      rw [adapt_channels_length, hdst, hsrc, hch]
    apply List.ext_getElem hlen
    intro i hi1 hi2
    have hilt : i < frames * dst_ch := by
      rw [← hdst, ← adapt_channels_length src dst src_ch dst_ch]
      exact hi1
    have hf : i / dst_ch < frames := Nat.div_lt_of_lt_mul
      (by rw [Nat.mul_comm] at hilt; exact hilt)
    have hc : i % dst_ch < dst_ch := Nat.mod_lt _ hdc
    have hsplit : i = (i / dst_ch) * dst_ch + i % dst_ch := by
      rw [Nat.mul_comm]
      exact (Nat.div_add_mod i dst_ch).symm
    have key := (adapt_channels_getD src dst src_ch dst_ch frames hdc hdst
      (i / dst_ch) (i % dst_ch) hf hc)
    have hval : (adapt_channels src src_ch dst dst_ch).getD
        ((i / dst_ch) * dst_ch + i % dst_ch) 0
        = src.getD ((i / dst_ch) * src_ch + i % dst_ch) 0 := by
      rw [key]
      unfold adaptFrame
      rw [if_neg hn1, if_neg hn2]
      have hcmin : i % dst_ch < min src_ch dst_ch := by
        rw [hch]
        simpa using hc
      rw [List.getD_append _ _ _ _ (by simpa using hcmin)]
      rw [List.getD_eq_getElem?_getD, List.getElem?_map,
        List.getElem?_range hcmin]
      rfl
    have hidx2 : (i / dst_ch) * src_ch + i % dst_ch = i := by
      rw [hch, Nat.mul_comm]
      exact Nat.div_add_mod i dst_ch
    rw [← hsplit, hidx2] at hval
    rw [List.getD_eq_getElem?_getD, List.getD_eq_getElem?_getD,
      List.getElem?_eq_getElem hi1, List.getElem?_eq_getElem hi2] at hval
    simpa using hval

/-- Witness for C7: averaging the stereo buffer [1, 3, 2, 4] into mono
(the spec's stereo-to-mono example). -/
theorem adapt_channels_spec_witness :
    ((0 : Nat) < 1 ∧ ([0, 0] : List ℚ).length = 2 * 1
      ∧ ([1, 3, 2, 4] : List ℚ).length = 2 * 2)
    ∧ (adapt_channels [1, 3, 2, 4] 2 [0, 0] 1).getD 0 0
      = (((List.range 2).map fun c =>
          ([1, 3, 2, 4] : List ℚ).getD (0 * 2 + c) 0).sum) / (2 : ℚ) :=
  ⟨⟨by decide, by decide, by decide⟩,
   (adapt_channels_spec [1, 3, 2, 4] [0, 0] 2 1 2 (by decide) (by decide)
      (by decide)).2.2.1 (by decide) rfl 0 (by decide)⟩

/-! ## Play history and statistics (engine.rs, record_play_event) -/

/-- A `/stats/<id>` document. -/
structure StatsDoc where
  media_id : String
  play_count : Nat
  total_played_ms : Nat
  last_played_ms : Int
  deriving DecidableEq, Repr

/-- A `/history/<epoch_ms>` document. -/
structure HistoryDoc where
  media_id : String
  played_at_ms : Int
  duration_played_ms : Nat
  deriving DecidableEq, Repr

/-- The slice of the store that record_play_event touches: the stats
documents keyed by media id and the history documents keyed by the
epoch-millisecond path component. -/
structure StatsStore where
  stats : String → Option StatsDoc
  history : Int → Option HistoryDoc

/-- engine.rs record_play_event: write the history document at the
current epoch-millisecond path and read-modify-write `/stats/<id>`,
incrementing play_count and adding the played duration (absent document
or fields read as 0).  play_count and total_played_ms are u64, so both
additions reduce modulo 2^64 (release-mode wrapping; a debug build
panics instead of wrapping, which equally breaks the exact-sum
claims). -/
def record_play_event (now : Int) (st : StatsStore) (media_id : String)
    (duration_played_ms : Nat) : StatsStore :=
  let prior := match st.stats media_id with
    | some s => (s.play_count, s.total_played_ms)
    | none => (0, 0)
  { history := fun t => if t = now
      then some ⟨media_id, now, duration_played_ms⟩ else st.history t
    stats := fun i => if i = media_id
      then some ⟨media_id, (prior.1 + 1) % 2 ^ 64,
        (prior.2 + duration_played_ms) % 2 ^ 64, now⟩
      else st.stats i }

/-- The (play_count, total_played_ms) pair read with absent-as-0. -/
def statsOf (st : StatsStore) (id : String) : Nat × Nat :=
  match st.stats id with
  | some s => (s.play_count, s.total_played_ms)
  | none => (0, 0)

/-- A fold of record_play_event calls (now, id, duration). -/
def recordAll (calls : List (Int × String × Nat)) (st : StatsStore) :
    StatsStore :=
  calls.foldl (fun s c => record_play_event c.1 s c.2.1 c.2.2) st

/-- No call in the sequence overflows the u64 play_count or
total_played_ms of the id it touches, at the state it runs in. -/
def NoOverflowCalls : StatsStore → List (Int × String × Nat) → Prop
  | _, [] => True
  | st, c :: rest =>
    (statsOf st c.2.1).1 + 1 < 2 ^ 64
    ∧ (statsOf st c.2.1).2 + c.2.2 < 2 ^ 64
    ∧ NoOverflowCalls (record_play_event c.1 st c.2.1 c.2.2) rest

/-- The stats pair after a record_play call for the same id: both
fields advance by the increment, wrapped at 2^64. -/
theorem statsOf_record_eq (now : Int) (st : StatsStore) (mid : String)
    (d : Nat) :
    statsOf (record_play_event now st mid d) mid
      = (((statsOf st mid).1 + 1) % 2 ^ 64,
         ((statsOf st mid).2 + d) % 2 ^ 64) := by
  cases hs : st.stats mid <;> simp [statsOf, record_play_event, hs]

/-- record_play leaves every other id's stats untouched. -/
theorem statsOf_record_ne (now : Int) (st : StatsStore) (mid : String)
    (d : Nat) (id : String) (h : id ≠ mid) :
    statsOf (record_play_event now st mid d) id = statsOf st id := by
  simp [statsOf, record_play_event, h]

theorem record_play_mono (now : Int) (st : StatsStore) (mid : String)
    (d : Nat) (id : String) (h1 : (statsOf st mid).1 + 1 < 2 ^ 64)
    (h2 : (statsOf st mid).2 + d < 2 ^ 64) :
    (statsOf st id).1 ≤ (statsOf (record_play_event now st mid d) id).1
    ∧ (statsOf st id).2 ≤ (statsOf (record_play_event now st mid d) id).2 := by
  by_cases h : id = mid
  · subst h
    rw [statsOf_record_eq]
    constructor
    · show (statsOf st id).1 ≤ ((statsOf st id).1 + 1) % 2 ^ 64
      rw [Nat.mod_eq_of_lt h1]
      omega
    · show (statsOf st id).2 ≤ ((statsOf st id).2 + d) % 2 ^ 64
      rw [Nat.mod_eq_of_lt h2]
      omega
  · rw [statsOf_record_ne now st mid d id h]
    exact ⟨Nat.le_refl _, Nat.le_refl _⟩

/-- C8 (amended): record_play writes the history entry with the played
duration and rewrites the stats document with play_count + 1 and
total + duration, both reduced modulo 2^64 as the u64 fields are; the
exact increments, the two-calls sum, and monotonicity hold whenever the
64-bit counters do not overflow. -/
theorem record_play_spec :
    (∀ (now : Int) (st : StatsStore) (id : String) (d : Nat),
      (record_play_event now st id d).history now = some ⟨id, now, d⟩
      ∧ (record_play_event now st id d).stats id
        = some ⟨id, ((statsOf st id).1 + 1) % 2 ^ 64,
            ((statsOf st id).2 + d) % 2 ^ 64, now⟩
      ∧ ((statsOf st id).1 + 1 < 2 ^ 64 → (statsOf st id).2 + d < 2 ^ 64 →
          statsOf (record_play_event now st id d) id
            = ((statsOf st id).1 + 1, (statsOf st id).2 + d)))
    ∧ (∀ (now1 now2 : Int) (st : StatsStore) (id : String) (d1 d2 : Nat),
      st.stats id = none → d1 + d2 < 2 ^ 64 →
      (record_play_event now2 (record_play_event now1 st id d1) id d2).stats
          id
        = some ⟨id, 2, d1 + d2, now2⟩)
    ∧ (∀ (calls : List (Int × String × Nat)) (st : StatsStore) (id : String),
      NoOverflowCalls st calls →
      (statsOf st id).1 ≤ (statsOf (recordAll calls st) id).1
      ∧ (statsOf st id).2 ≤ (statsOf (recordAll calls st) id).2) := by
  refine ⟨?_, ?_, ?_⟩
  · intro now st id d
    refine ⟨by simp [record_play_event], by simp [record_play_event, statsOf],
      ?_⟩
    intro h1 h2
    rw [statsOf_record_eq, Nat.mod_eq_of_lt h1, Nat.mod_eq_of_lt h2]
  · intro now1 now2 st id d1 d2 hnone hlt
    simp [record_play_event, hnone]
    omega
  · intro calls
    induction calls with
    | nil => exact fun st id _ => ⟨Nat.le_refl _, Nat.le_refl _⟩
    | cons c rest ih =>
      intro st id hno
      obtain ⟨hn1, hn2, hrest⟩ := hno
      have h1 := record_play_mono c.1 st c.2.1 c.2.2 id hn1 hn2
      have h2 := ih (record_play_event c.1 st c.2.1 c.2.2) id hrest
      exact ⟨Nat.le_trans h1.1 h2.1, Nat.le_trans h1.2 h2.2⟩

/-- C8 counterexample to the original claim: with d = 2^64 − 1 (a
representable u64 duration), the second record_play wraps the u64
total_played_ms — the stored total is 2^64 − 2, not the exact sum
2(2^64 − 1), and it has decreased below the total after the first call,
so neither the exact-sum nor the monotonicity conjunct holds as
stated. -/
theorem record_play_wrap_counterexample :
    (statsOf (record_play_event 1 ⟨fun _ => none, fun _ => none⟩ "a"
        (2 ^ 64 - 1)) "a").2 = 2 ^ 64 - 1
    ∧ (statsOf (record_play_event 2 (record_play_event 1
        ⟨fun _ => none, fun _ => none⟩ "a" (2 ^ 64 - 1)) "a"
        (2 ^ 64 - 1)) "a").2 = 2 ^ 64 - 2
    ∧ (statsOf (record_play_event 2 (record_play_event 1
        ⟨fun _ => none, fun _ => none⟩ "a" (2 ^ 64 - 1)) "a"
        (2 ^ 64 - 1)) "a").2 ≠ (2 ^ 64 - 1) + (2 ^ 64 - 1)
    ∧ ¬ ((statsOf (record_play_event 1 ⟨fun _ => none, fun _ => none⟩ "a"
        (2 ^ 64 - 1)) "a").2
      ≤ (statsOf (record_play_event 2 (record_play_event 1
        ⟨fun _ => none, fun _ => none⟩ "a" (2 ^ 64 - 1)) "a"
        (2 ^ 64 - 1)) "a").2) := by
  have h1 : (statsOf (record_play_event 1 ⟨fun _ => none, fun _ => none⟩ "a"
      (2 ^ 64 - 1)) "a").2 = 2 ^ 64 - 1 := by
    simp [record_play_event, statsOf]
  have h2 : (statsOf (record_play_event 2 (record_play_event 1
      ⟨fun _ => none, fun _ => none⟩ "a" (2 ^ 64 - 1)) "a"
      (2 ^ 64 - 1)) "a").2 = 2 ^ 64 - 2 := by
    simp [record_play_event, statsOf]
  refine ⟨h1, h2, ?_, ?_⟩
  · rw [h2]
    intro h
    omega
  · rw [h1, h2]
    intro h
    omega

/-- Witness for C8: record_play(a, 180000) twice from empty stats (the
spec's scenario 7; both sums far below 2^64). -/
theorem record_play_spec_witness :
    ((⟨fun _ => none, fun _ => none⟩ : StatsStore).stats "a" = none
      ∧ 180000 + 180000 < 2 ^ 64)
    ∧ (record_play_event 2 (record_play_event 1
        ⟨fun _ => none, fun _ => none⟩ "a" 180000) "a" 180000).stats "a"
      = some ⟨"a", 2, 180000 + 180000, 2⟩ :=
  ⟨⟨rfl, by norm_num⟩,
   record_play_spec.2.1 1 2 ⟨fun _ => none, fun _ => none⟩ "a"
     180000 180000 rfl (by norm_num)⟩

/-! ## Clock configuration (engine.rs, build_clock and friends) -/

/-- One element of the config's partitions array; `none` fields stand
for missing keys or wrong JSON types (as_str/as_u64 failures). -/
structure PartitionJson where
  name : Option String
  modulus : Option Nat

/-- One element of the config's pulses array. -/
structure PulseJson where
  name : Option String
  every : Option Nat

/-- The parsed shape of a `/clock/config` document; a `none` array means
the key is missing or not an array. -/
structure ClockConfigJson where
  partitions : Option (List PartitionJson)
  pulses : Option (List PulseJson)

/-- Modelled from the spec: the beeclock Clock value; the beeclock_core
crate is not part of this repository.  §4.5.2 describes a clock as named
partitions (least-significant first, each with a modulus) plus named
pulses with periods. -/
structure Clock where
  partitions : List (String × Nat)
  pulses : List (String × Nat)
  deriving DecidableEq, Repr

/-- Modelled from the spec: Clock::builder()…build() on the accumulated
partitions and pulses; §4.5.2 gives no failure condition besides the
zero checks engine.rs itself performs, so building is total. -/
def Clock.build (partitions pulses : List (String × Nat)) : Option Clock :=
  some ⟨partitions, pulses⟩

/-- engine.rs default_clock: partitions sub(4), beat(4), bar(4)
least-significant first; pulses beat/4, bar/16, phrase/64. -/
def default_clock : Clock :=
  ⟨[("sub", 4), ("beat", 4), ("bar", 4)],
   [("beat", 4), ("bar", 16), ("phrase", 64)]⟩

/-- The partitions loop of try_build_clock_from_config: each element
needs a string name and integer modulus, and a zero modulus aborts. -/
def parsePartitions : List PartitionJson → Option (List (String × Nat))
  | [] => some []
  | p :: rest =>
    match p.name, p.modulus with
    | some nm, some m =>
      if m = 0 then none
      else
        match parsePartitions rest with
        | some tail => some ((nm, m) :: tail)
        | none => none
    | _, _ => none

/-- The pulses loop of try_build_clock_from_config: zero `every`
aborts. -/
def parsePulses : List PulseJson → Option (List (String × Nat))
  | [] => some []
  | p :: rest =>
    match p.name, p.every with
    | some nm, some m =>
      if m = 0 then none
      else
        match parsePulses rest with
        | some tail => some ((nm, m) :: tail)
        | none => none
    | _, _ => none

/-- engine.rs try_build_clock_from_config: both arrays must be present
(else the `?` operator aborts), then both loops must succeed. -/
def try_build_clock_from_config : ClockConfigJson → Option Clock
  | ⟨none, _⟩ => none
  | ⟨some _, none⟩ => none
  | ⟨some parts, some pulses⟩ =>
    match parsePartitions parts with
    | none => none
    | some ps =>
      match parsePulses pulses with
      | none => none
      | some qs => Clock.build ps qs

/-- engine.rs build_clock: the stored config when it builds, otherwise
the default clock (also when no config is stored or reading it fails). -/
def build_clock (stored : Option ClockConfigJson) : Clock :=
  match stored with
  | some config =>
    match try_build_clock_from_config config with
    | some clock => clock
    | none => default_clock
  | none => default_clock

theorem parsePartitions_zero (parts : List PartitionJson)
    (h : ∃ p ∈ parts, p.modulus = some 0) : parsePartitions parts = none := by
  induction parts with
  | nil => simp at h
  | cons p rest ih =>
    obtain ⟨q, hq, hz⟩ := h
    rw [List.mem_cons] at hq
    rcases hq with hq | hq
    · subst hq
      simp only [parsePartitions, hz]
      cases q.name with
      | none => rfl
      | some nm => simp
    · simp only [parsePartitions]
      cases hn : p.name with
      | none => rfl
      | some nm =>
        cases hm : p.modulus with
        | none => rfl
        | some m =>
          by_cases hm0 : m = 0
          · simp [hn, hm, hm0]
          · simp [hn, hm, hm0, ih ⟨q, hq, hz⟩]

theorem parsePulses_zero (pulses : List PulseJson)
    (h : ∃ p ∈ pulses, p.every = some 0) : parsePulses pulses = none := by
  induction pulses with
  | nil => simp at h
  | cons p rest ih =>
    obtain ⟨q, hq, hz⟩ := h
    rw [List.mem_cons] at hq
    rcases hq with hq | hq
    · subst hq
      simp only [parsePulses, hz]
      cases q.name with
      | none => rfl
      | some nm => simp
    · simp only [parsePulses]
      cases hn : p.name with
      | none => rfl
      | some nm =>
        cases hm : p.every with
        | none => rfl
        | some m =>
          by_cases hm0 : m = 0
          · simp [hn, hm, hm0]
          · simp [hn, hm, hm0, ih ⟨q, hq, hz⟩]

theorem parsePartitions_valid (parts : List PartitionJson)
    (h : ∀ p ∈ parts, ∃ nm m, p.name = some nm ∧ p.modulus = some m
      ∧ 0 < m) :
    parsePartitions parts
      = some (parts.map fun p => (p.name.getD "", p.modulus.getD 0)) := by
  induction parts with
  | nil => rfl
  | cons p rest ih =>
    obtain ⟨nm, m, hn, hm, hpos⟩ := h p (by simp)
    have hm0 : ¬ m = 0 := by omega
    have ht := ih fun q hq => h q (by simp [hq])
    simp [parsePartitions, hn, hm, hm0, ht]

theorem parsePulses_valid (pulses : List PulseJson)
    (h : ∀ p ∈ pulses, ∃ nm m, p.name = some nm ∧ p.every = some m
      ∧ 0 < m) :
    parsePulses pulses
      = some (pulses.map fun p => (p.name.getD "", p.every.getD 0)) := by
  induction pulses with
  | nil => rfl
  | cons p rest ih =>
    obtain ⟨nm, m, hn, hm, hpos⟩ := h p (by simp)
    have hm0 : ¬ m = 0 := by omega
    have ht := ih fun q hq => h q (by simp [hq])
    simp [parsePulses, hn, hm, hm0, ht]

/-- C9: build_clock falls back to the default clock — partitions sub(4),
beat(4), bar(4), pulses beat/4, bar/16, phrase/64 — when no config is
stored, when the config shape does not parse, or when any partition
modulus or pulse period is zero; a fully valid config is used as
given. -/
theorem clock_config_spec :
    build_clock none = default_clock
    ∧ (∀ cfg : ClockConfigJson, cfg.partitions = none ∨ cfg.pulses = none →
        build_clock (some cfg) = default_clock)
    ∧ (∀ (cfg : ClockConfigJson) (parts : List PartitionJson),
        cfg.partitions = some parts →
        (∃ p ∈ parts, p.modulus = some 0) →
        build_clock (some cfg) = default_clock)
    ∧ (∀ (cfg : ClockConfigJson) (pulses : List PulseJson),
        cfg.pulses = some pulses →
        (∃ p ∈ pulses, p.every = some 0) →
        build_clock (some cfg) = default_clock)
    ∧ (∀ (cfg : ClockConfigJson) (parts : List PartitionJson)
        (pulses : List PulseJson),
        cfg.partitions = some parts → cfg.pulses = some pulses →
        (∀ p ∈ parts, ∃ nm m, p.name = some nm ∧ p.modulus = some m
          ∧ 0 < m) →
        (∀ p ∈ pulses, ∃ nm m, p.name = some nm ∧ p.every = some m
          ∧ 0 < m) →
        build_clock (some cfg)
          = ⟨parts.map fun p => (p.name.getD "", p.modulus.getD 0),
             pulses.map fun p => (p.name.getD "", p.every.getD 0)⟩)
    ∧ default_clock = ⟨[("sub", 4), ("beat", 4), ("bar", 4)],
        [("beat", 4), ("bar", 16), ("phrase", 64)]⟩ := by
  refine ⟨rfl, ?_, ?_, ?_, ?_, rfl⟩
  · intro cfg h
    obtain ⟨cp, cq⟩ := cfg
    simp only at h
    rcases h with h | h
    · subst h
      rfl
    · subst h
      cases cp with
      | none => rfl
      | some parts => rfl
  · intro cfg parts hparts h
    obtain ⟨cp, cq⟩ := cfg
    simp only at hparts
    subst hparts
    cases cq with
    | none => rfl
    | some pulses =>
      simp only [build_clock, try_build_clock_from_config,
        parsePartitions_zero parts h]
  · intro cfg pulses hpulses h
    obtain ⟨cp, cq⟩ := cfg
    simp only at hpulses
    subst hpulses
    cases cp with
    | none => rfl
    | some parts =>
      simp only [build_clock, try_build_clock_from_config,
        parsePulses_zero pulses h]
      cases parsePartitions parts with
      | none => rfl
      | some ps => rfl
  · intro cfg parts pulses hparts hpulses hv1 hv2
    obtain ⟨cp, cq⟩ := cfg
    simp only at hparts hpulses
    subst hparts
    subst hpulses
    simp only [build_clock, try_build_clock_from_config,
      parsePartitions_valid parts hv1, parsePulses_valid pulses hv2,
      Clock.build]

/-- Witness for C9: a config whose only partition has modulus 0 falls
back to the default clock. -/
theorem clock_config_spec_witness :
    ((⟨some [⟨some "beat", some 0⟩], some []⟩ :
        ClockConfigJson).partitions = some [⟨some "beat", some 0⟩]
      ∧ (∃ p ∈ [(⟨some "beat", some 0⟩ : PartitionJson)],
          p.modulus = some 0))
    ∧ build_clock (some ⟨some [⟨some "beat", some 0⟩], some []⟩)
      = default_clock :=
  ⟨⟨rfl, ⟨⟨some "beat", some 0⟩, by simp, rfl⟩⟩,
   clock_config_spec.2.2.1 ⟨some [⟨some "beat", some 0⟩], some []⟩
     [⟨some "beat", some 0⟩] rfl ⟨⟨some "beat", some 0⟩, by simp, rfl⟩⟩

end Amsal
